import Mathlib

set_option allowUnsafeReducibility true in
attribute [semireducible] Rat.mul Rat.add Rat.sub Rat.inv Rat.ofScientific

/-!
Shallow embedding of the DTR (Daily Time Record) extraction and aggregation
core, translated from `src/utils/parseDtr.ts` and `src/utils/pdfHasText.ts`.

Modelling conventions:
* JavaScript strings are modelled as Lean `String`s; regular-expression
  matching is implemented by hand-rolled deterministic matchers over
  `List Char` that realise the exact backtracking semantics of the source
  patterns (justifications are given at each matcher).
* Page coordinates (word bounding boxes) are modelled as exact rationals
  (`Rat`): the source computes vertical midpoints `(y0+y1)/2` and the day
  column threshold `maxX * 0.22` over JavaScript numbers.
* JavaScript's stable `Array.prototype.sort` with a numeric key comparator
  is modelled by `List.insertionSort` with the corresponding `≤` relation
  on the key, which is a stable sort producing the same result.
* `undefined`/`null` results are modelled with `Option`.
-/

namespace Dtr

/-- ASCII digit test, the `\d` class of JavaScript regular expressions. -/
def isAsciiDigit (c : Char) : Bool := '0' ≤ c && c ≤ '9'

/-- Numeric value of an ASCII digit character. -/
def digitVal (c : Char) : Nat := c.toNat - '0'.toNat

/-- The `\s` class of JavaScript regular expressions (whitespace and line
terminators, including the Unicode space characters). -/
def isJsSpace (c : Char) : Bool :=
  c = ' ' || c = '\t' || c = '\n' || c = '\x0b' || c = '\x0c' || c = '\r' ||
  c = ' ' || c = ' ' ||
  (0x2000 ≤ c.toNat && c.toNat ≤ 0x200a) ||
  c = ' ' || c = ' ' || c = ' ' || c = ' ' ||
  c = '　' || c = '﻿'

/-- ASCII upper-casing of a character (`String.prototype.toUpperCase` on the
ASCII letters that occur in the matched tokens). -/
def toUpperAscii (c : Char) : Char :=
  if 'a' ≤ c && c ≤ 'z' then Char.ofNat (c.toNat - 32) else c

/-- The `\w` class of JavaScript regular expressions, used by `\b`. -/
def isWordChar (c : Char) : Bool :=
  isAsciiDigit c || ('A' ≤ c && c ≤ 'Z') || ('a' ≤ c && c ≤ 'z') || c = '_'

/-- `Number(s)` on a string of ASCII digits. -/
def natOfDigits (l : List Char) : Nat := l.foldl (fun n c => 10 * n + digitVal c) 0

/-- `String.prototype.trim`: strip whitespace from both ends. -/
def jsTrim (s : String) : String :=
  String.mk (((s.toList.dropWhile isJsSpace).reverse.dropWhile isJsSpace).reverse)

/-- ASCII-uppercased copy of a string. -/
def upperStr (s : String) : String := String.mk (s.toList.map toUpperAscii)

/-- `String.prototype.startsWith`. -/
def jsStartsWith (s p : String) : Bool := p.toList.isPrefixOf s.toList

/-- Case-insensitive meridiem pair: `(AM|PM)` with the `i` flag, on the two
characters `a`, `m` (without the `u` flag, only the ASCII case variants can
match).  Returns `false` for AM, `true` for PM. -/
def apPair (a m : Char) : Option Bool :=
  if m = 'M' || m = 'm' then
    if a = 'A' || a = 'a' then some false
    else if a = 'P' || a = 'p' then some true
    else none
  else none

/-- Matcher for the tail `(AM|PM)$` of `/^(\d{1,2}):(\d{2})\s?(AM|PM)$/i`,
given the remainder after the two minute digits: either exactly the two
meridiem characters, or one whitespace character (`\s?`) and then the two
meridiem characters. -/
def matchTailAp : List Char → Option Bool
  | [a, m] => apPair a m
  | [w, a, m] => if isJsSpace w then apPair a m else none
  | _ => none

/-- Matcher for `(\d{2})\s?(AM|PM)$`: two minute digits followed by
`matchTailAp`.  Returns the minute value and the meridiem. -/
def matchMmAp : List Char → Option (Nat × Bool)
  | m1 :: m2 :: rest =>
    if isAsciiDigit m1 && isAsciiDigit m2 then
      (matchTailAp rest).map fun pm => (10 * digitVal m1 + digitVal m2, pm)
    else none
  | _ => none

/-- Continuation of `matchHmAp` after a two-digit hour `hh`: expects the
literal colon and then minutes and meridiem. -/
def matchHmNext (hh : Nat) : List Char → Option (Nat × Nat × Bool)
  | c3 :: rest2 =>
    if c3 = ':' then (matchMmAp rest2).map fun p => (hh, p.1, p.2) else none
  | [] => none

/-- Full matcher for `/^(\d{1,2}):(\d{2})\s?(AM|PM)$/i` over the character
list of the subject string.  The leading `\d{1,2}` is deterministic because
the character after it must be the literal `:`, which is not a digit.
Returns `(hour value, minute value, is PM)`. -/
def matchHmAp : List Char → Option (Nat × Nat × Bool)
  | c1 :: c2 :: rest =>
    if isAsciiDigit c1 then
      if c2 = ':' then
        (matchMmAp rest).map fun p => (digitVal c1, p.1, p.2)
      else if isAsciiDigit c2 then
        matchHmNext (10 * digitVal c1 + digitVal c2) rest
      else none
    else none
  | _ => none

/-- The 12-hour to minutes-of-day conversion rule shared by both converters:
AM 12 → 0, PM non-12 → +12 hours, otherwise the hour unchanged. -/
def clockMinutes (hh mm : Nat) (pm : Bool) : Nat :=
  (if pm then (if hh ≠ 12 then hh + 12 else hh) else (if hh = 12 then 0 else hh)) * 60 + mm

/-- `timeToMinutesOfDay` from `src/utils/parseDtr.ts` (lines 48–62): match
`/^(\d{1,2}):(\d{2})\s?(AM|PM)$/i` and apply the AM/PM offset rule.  Note:
no range check is performed on the matched hour and minute. -/
def timeToMinutesOfDay (t : String) : Option Nat :=
  (matchHmAp t.toList).map fun x => clockMinutes x.1 x.2.1 x.2.2

/-- `parseTimeToMinutes` from `src/utils/pdfHasText.ts` (lines 22–39): the
same pattern, but rejecting hours outside 1–12 and minutes outside 0–59
before applying the AM/PM offset rule. -/
def parseTimeToMinutes (t : String) : Option Nat :=
  match matchHmAp t.toList with
  | none => none
  | some (hh, mm, pm) =>
    if hh < 1 || 12 < hh || 59 < mm then none
    else some (clockMinutes hh mm pm)

/-- `diffMinutes` from `src/utils/pdfHasText.ts` (lines 41–50).  A missing
argument, the empty string (falsy in JavaScript), or a string rejected by
`parseTimeToMinutes` contributes 0; otherwise end minus start, assuming a
crossed midnight when the end is strictly earlier than the start. -/
def diffMinutes (start? end? : Option String) : Int :=
  match start?, end? with
  | some s, some e =>
    if s = "" || e = "" then 0
    else
      match parseTimeToMinutes s, parseTimeToMinutes e with
      | some sm, some em =>
        if em < sm then 24 * 60 - (sm : Int) + (em : Int) else (em : Int) - (sm : Int)
      | _, _ => 0
  | _, _ => 0

/-- Days from the civil epoch 1970-01-01 of the Gregorian date
`(y, m ∈ 1..12, 1)` shifted by `d - 1` days (so `d` may be any integer,
matching JavaScript `Date` day-of-month rollover). -/
def daysFromCivil (y m d : Int) : Int :=
  let y2 := if m ≤ 2 then y - 1 else y
  let era := y2.fdiv 400
  let yoe := y2 - era * 400
  let mp := if 2 < m then m - 3 else m + 9
  let doy := (153 * mp + 2).fdiv 5 + d - 1
  let doe := yoe * 365 + yoe.fdiv 4 - yoe.fdiv 100 + doy
  era * 146097 + doe - 719468

/-- `weekdayOfDate`, common to both source files: the weekday
(0 = Sunday .. 6 = Saturday) of `new Date(year, monthIndex0, day)`,
including JavaScript's mapping of years 0–99 to 1900–1999 and its rollover
of out-of-range month indices and days. -/
def weekdayOfDate (year monthIndex0 day : Int) : Int :=
  let yAdj := if 0 ≤ year && year ≤ 99 then year + 1900 else year
  let ym := yAdj * 12 + monthIndex0
  (daysFromCivil (ym.fdiv 12) (ym.emod 12 + 1) day + 4).emod 7

/-- `DtrRow` from `src/types.ts`: one extracted day with optional in/out
display-time strings for the morning and afternoon pairs. -/
structure DtrRow where
  day : Nat
  amIn : Option String := none
  amOut : Option String := none
  pmIn : Option String := none
  pmOut : Option String := none
deriving DecidableEq, Repr

/-- `DaySchedule` from `src/types.ts`: one weekday with its scheduled start
and end times (the latter two are never read by the aggregator). -/
structure DaySchedule where
  weekday : Int
  start : String
  «end» : String
deriving DecidableEq, Repr

/-- `ScheduleState` from `src/types.ts`. -/
structure ScheduleState where
  items : List DaySchedule
deriving DecidableEq, Repr

/-- One element of the `perDay` array built by `computeTotalMinutes`. -/
structure PerDayOut where
  day : Nat
  weekday : Int
  inSchedule : Bool
  minutes : Int
  rawMinutes : Int
deriving DecidableEq, Repr

/-- `computeTotalMinutes` from `src/utils/pdfHasText.ts` (lines 56–82):
per row, raw minutes are `diffMinutes(amIn, amOut) + diffMinutes(pmIn, pmOut)`;
counted minutes are the raw minutes when the row's weekday is in the set of
schedule weekdays and 0 otherwise; the total is the sum of counted minutes. -/
def computeTotalMinutes (rows : List DtrRow) (schedule : ScheduleState)
    (year monthIndex0 : Int) : Int × List PerDayOut :=
  let allowed := schedule.items.map (·.weekday)
  let perDay := rows.map fun r =>
    let wd := weekdayOfDate year monthIndex0 (r.day : Int)
    let inSchedule := allowed.contains wd
    let minutes := diffMinutes r.amIn r.amOut + diffMinutes r.pmIn r.pmOut
    { day := r.day, weekday := wd, inSchedule := inSchedule,
      minutes := if inSchedule then minutes else 0, rawMinutes := minutes : PerDayOut }
  (perDay.foldl (fun sum d => sum + d.minutes) 0, perDay)

/-! ### Token matchers of the row extractor (`parseDtr.ts`) -/

/-- `normalizeTime` from `parseDtr.ts` (lines 31–34): unpadded numeric hour,
the minute capture verbatim, upper-cased meridiem. -/
def normalizeTime (hh : Nat) (mm : String) (pm : Bool) : String :=
  toString hh ++ ":" ++ mm ++ (if pm then " PM" else " AM")

/-- Greedy leading `\d{1,2}`: takes one or two leading digits (two when
available) and returns the numeric value plus the remainder.  In every
pattern that uses it, the following element is `\s*` plus a character class
that excludes digits, so when two digits are available the one-digit
alternative can never lead to a match and the maximal munch is complete. -/
def takeDigits2 : List Char → Option (Nat × List Char)
  | [] => none
  | [c1] => if isAsciiDigit c1 then some (digitVal c1, []) else none
  | c1 :: c2 :: rest =>
    if isAsciiDigit c1 then
      if isAsciiDigit c2 then some (10 * digitVal c1 + digitVal c2, rest)
      else some (digitVal c1, c2 :: rest)
    else none

/-- Does `P` match `\s*[:.\s]\s*`?  Exactly when `P` is nonempty and
contains at most one non-whitespace character, which must then be `:` or
`.` (the single class character is a whitespace character when `P` is all
whitespace). -/
def isSepRun (P : List Char) : Bool :=
  match P.filter (fun c => !(isJsSpace c)) with
  | [] => !P.isEmpty
  | [c] => c = ':' || c = '.'
  | _ => false

/-- Matcher for `timeCompactRe = /^(\d{1,2})\s*[:.\s]\s*(\d{2})(AM|PM)$/i`
(`parseDtr.ts` line 29): the subject must end with two minute digits
directly followed by the meridiem, with a separator run in between.
Returns `(hour value, minute capture, is PM)`. -/
def matchCompactTime (cs : List Char) : Option (Nat × String × Bool) :=
  match takeDigits2 cs with
  | none => none
  | some (hh, r) =>
    let k := r.length
    if 4 ≤ k then
      match r.drop (k - 4) with
      | [m1, m2, a, m] =>
        if isAsciiDigit m1 && isAsciiDigit m2 && isSepRun (r.take (k - 4)) then
          (apPair a m).map fun pm => (hh, String.mk [m1, m2], pm)
        else none
      | _ => none
    else none

/-- Matcher for the bare value form `/^(\d{1,2})\s*[:.\s]\s*(\d{2})$/`
(`parseDtr.ts` line 145), whose meridiem is expected in the next fragment. -/
def matchBareHm (cs : List Char) : Option (Nat × String) :=
  match takeDigits2 cs with
  | none => none
  | some (hh, r) =>
    let k := r.length
    if 2 ≤ k then
      match r.drop (k - 2) with
      | [m1, m2] =>
        if isAsciiDigit m1 && isAsciiDigit m2 && isSepRun (r.take (k - 2)) then
          some (hh, String.mk [m1, m2])
        else none
      | _ => none
    else none

/-- Matcher for `timeTokenRe = /^(\d{1,2})\s*[:.\s]\s*(\d{2})\s*(AM|PM)$/i`
(`parseDtr.ts` line 28).  Works from the end: the meridiem pair, then the
maximal whitespace run (`\s*` is forced to consume all of it because the
minute digits cannot be whitespace), then the two minute digits, then the
separator run. -/
def matchSpacedTime (cs : List Char) : Option (Nat × String × Bool) :=
  match takeDigits2 cs with
  | none => none
  | some (hh, r) =>
    match r.reverse with
    | m :: a :: rest =>
      match apPair a m with
      | none => none
      | some pm =>
        match rest.dropWhile isJsSpace with
        | m2 :: m1 :: pRev =>
          if isAsciiDigit m1 && isAsciiDigit m2 && isSepRun pRev.reverse then
            some (hh, String.mk [m1, m2], pm)
          else none
        | _ => none
    | _ => none

/-- Matcher for `/^(AM|PM)$/i` over a whole fragment (`parseDtr.ts`
line 148). -/
def matchApStr (s : String) : Option Bool :=
  match s.toList with
  | [a, m] => apPair a m
  | _ => none

/-- The header-noise filter
`/^(A\.?M\.?|P\.?M\.?|Arrival|Departure|Late|U-?Time|Mins\.?)$/i`
(`parseDtr.ts` line 135), by case-insensitive comparison against the finite
list of surface forms. -/
def isNoiseToken (s : String) : Bool :=
  let u := upperStr s
  u = "AM" || u = "A.M" || u = "AM." || u = "A.M." ||
  u = "PM" || u = "P.M" || u = "PM." || u = "P.M." ||
  u = "ARRIVAL" || u = "DEPARTURE" || u = "LATE" ||
  u = "U-TIME" || u = "UTIME" || u = "MINS" || u = "MINS."

/-! ### Per-day time resolution (`parseDtr.ts`) -/

/-- `Array.from(new Set(times))`: deduplication keeping the first
occurrence of each string, in encounter order. -/
def dedupFirstGo (seen : List String) : List String → List String
  | [] => []
  | x :: xs =>
    if seen.contains x then dedupFirstGo seen xs
    else x :: dedupFirstGo (x :: seen) xs

def dedupFirst (l : List String) : List String := dedupFirstGo [] l

/-- The key order used to sort candidate readings by minutes-of-day. -/
def leKey (a b : String × Nat) : Prop := a.2 ≤ b.2

instance : DecidableRel leKey := fun a b => inferInstanceAs (Decidable (a.2 ≤ b.2))

instance : IsTotal (String × Nat) leKey := ⟨fun a b => Nat.le_total a.2 b.2⟩

instance : IsTrans (String × Nat) leKey := ⟨fun _ _ _ h1 h2 => Nat.le_trans h1 h2⟩

/-- `uniqueTimes.map(t => ({t, m: timeToMinutesOfDay(t)}))` followed by
`.filter(x => x.m != null)` (`parseDtr.ts` lines 187–188): the valid keyed
readings in encounter order. -/
def validReadings (uniqueTimes : List String) : List (String × Nat) :=
  uniqueTimes.filterMap fun t => (timeToMinutesOfDay t).map fun mv => (t, mv)

/-- `.sort((a, b) => a.m - b.m)` (`parseDtr.ts` line 189): stable ascending
sort by minutes (JavaScript's sort is stable, which `insertionSort` with
`≤` on the key reproduces exactly). -/
def sortedValid (uniqueTimes : List String) : List (String × Nat) :=
  List.insertionSort leKey (validReadings uniqueTimes)

/-- The common in/out selection: with at least two sorted valid readings,
the first (earliest) is `inTime` and the last (latest) is `outTime`. -/
def resolveCore (uniqueTimes : List String) : Option String × Option String :=
  let sorted := sortedValid uniqueTimes
  if 2 ≤ sorted.length then
    (sorted.head?.map (·.1), sorted.getLast?.map (·.1))
  else (none, none)

/-- Per-day in/out designation of `parseDtrFromTesseractWords`
(`parseDtr.ts` lines 185–198): dedup, convert, sort; with at least two
valid readings the earliest is `inTime` and the latest `outTime`. -/
def resolveDay (times : List String) : Option String × Option String :=
  resolveCore (dedupFirst times)

/-- Per-day in/out designation of `parseDtrFromPdfText` (`parseDtr.ts`
lines 284–295): the same computation but guarded by a preliminary length
check on the deduplicated list (`timeToMinutes` there is an alias of
`timeToMinutesOfDay`, and the `?? Infinity` / `isFinite` combination keeps
exactly the readings whose conversion succeeds). -/
def resolveDayPdf (uniqueTimes : List String) : Option String × Option String :=
  if 2 ≤ uniqueTimes.length then resolveCore uniqueTimes else (none, none)

/-! ### Row clustering and the coordinate-path extractor (`parseDtr.ts`) -/

/-- A raw OCR word with its bounding box, the `WordBox` input type of
`parseDtrFromTesseractWords`.  Coordinates are modelled as exact
rationals. -/
structure WordBox where
  text : String
  x0 : Rat
  y0 : Rat
  x1 : Rat
  y1 : Rat
deriving DecidableEq, Repr

/-- A cleaned word together with its vertical and horizontal midpoints, as
built on lines 92–108 of `parseDtr.ts`. -/
structure Item where
  text : String
  x0 : Rat
  y0 : Rat
  x1 : Rat
  y1 : Rat
  yMid : Rat
  xMid : Rat
deriving DecidableEq, Repr

/-- One step of the y-cluster sweep (`parseDtr.ts` lines 110–121), with the
cluster list and each cluster kept in reverse order: a fragment joins the
current cluster when its midpoint is within tolerance 12 of the cluster's
last-appended fragment, and otherwise starts a new cluster. -/
def clusterStep (racc : List (List Item)) (it : Item) : List (List Item) :=
  match racc with
  | [] => [[it]]
  | c :: cs =>
    match c with
    | [] => [it] :: cs
    | lastIt :: _ =>
      if |it.yMid - lastIt.yMid| ≤ 12 then (it :: c) :: cs
      else [it] :: c :: cs

/-- The full y-midpoint chain clustering over the sorted items. -/
def clusterize (items : List Item) : List (List Item) :=
  ((items.foldl clusterStep []).map List.reverse).reverse

/-- `/^\d{1,2}$/.test(text)`: the day-cell text is exactly one or two
digits. -/
def isDayNumStr (s : String) : Bool :=
  match s.toList with
  | [c1] => isAsciiDigit c1
  | [c1, c2] => isAsciiDigit c1 && isAsciiDigit c2
  | _ => false

/-- `collectTimesFromRow` (`parseDtr.ts` lines 127–165) on the x0-sorted
row: skip noise tokens, then try the compact form, then the bare value
followed by a standalone meridiem fragment (consuming that fragment), then
the spaced form. -/
def collectTimes : List Item → List String
  | [] => []
  | w :: rest =>
    if isNoiseToken w.text then collectTimes rest
    else
      match matchCompactTime w.text.toList with
      | some (hh, mm, pm) => normalizeTime hh mm pm :: collectTimes rest
      | none =>
        match matchBareHm w.text.toList with
        | some (hh, mm) =>
          match rest with
          | [] =>
            match matchSpacedTime w.text.toList with
            | some (h2, mm2, pm2) => normalizeTime h2 mm2 pm2 :: collectTimes []
            | none => collectTimes []
          | nxt :: rest2 =>
            match matchApStr nxt.text with
            | some pm => normalizeTime hh mm pm :: collectTimes rest2
            | none =>
              match matchSpacedTime w.text.toList with
              | some (h2, mm2, pm2) => normalizeTime h2 mm2 pm2 :: collectTimes (nxt :: rest2)
              | none => collectTimes (nxt :: rest2)
        | none =>
          match matchSpacedTime w.text.toList with
          | some (hh, mm, pm) => normalizeTime hh mm pm :: collectTimes rest
          | none => collectTimes rest

/-- `Map.prototype.set` over an association list in insertion order:
`dayMap.set(day, (dayMap.get(day) ?? []).concat(times))`. -/
def upsert : List (Nat × List String) → Nat → List String → List (Nat × List String)
  | [], d, ts => [(d, ts)]
  | (k, v) :: rest, d, ts =>
    if k = d then (k, v ++ ts) :: rest else (k, v) :: upsert rest d ts

/-- Day-and-times accumulation over one row cluster (`parseDtr.ts` lines
167–180): find a 1–2 digit day cell in the left column, check the 1–31
range, collect the row's times and append them to the day's entry. -/
def dayScan (dayColMaxX : Rat) (acc : List (Nat × List String)) (row : List Item) :
    List (Nat × List String) :=
  match row.find? (fun w => decide (w.x0 ≤ dayColMaxX) && isDayNumStr w.text) with
  | none => acc
  | some dayWord =>
    let day := natOfDigits dayWord.text.toList
    if day < 1 || 31 < day then acc
    else
      let times := collectTimes (List.insertionSort (fun a b => a.x0 ≤ b.x0) row)
      if times.isEmpty then acc else upsert acc day times

/-! ### Header metadata extraction (`parseDtr.ts` lines 36–46) -/

/-- The capture `([^\n\r]+)` after `NAME\s*:\s*`, with the greedy `\s*`
backtracking one whitespace character at a time until the capture is
nonempty. -/
def goCap : List Char → Option (List Char)
  | [] => none
  | c :: rest =>
    if isJsSpace c then
      match goCap rest with
      | some cap => some cap
      | none =>
        if c = '\n' || c = '\r' then none
        else some ((c :: rest).takeWhile fun d => !(d = '\n' || d = '\r'))
    else
      if c = '\n' || c = '\r' then none
      else some ((c :: rest).takeWhile fun d => !(d = '\n' || d = '\r'))

/-- Attempt to match `NAME\s*:\s*([^\n\r]+)` at the current position. -/
def tryNameAt : List Char → Option (List Char)
  | n1 :: n2 :: n3 :: n4 :: rest =>
    if toUpperAscii n1 = 'N' && toUpperAscii n2 = 'A' && toUpperAscii n3 = 'M'
        && toUpperAscii n4 = 'E' then
      match (rest.dropWhile isJsSpace) with
      | ':' :: rest2 => goCap rest2
      | _ => none
    else none
  | _ => none

/-- Leftmost match of `tryNameAt` over all start positions. -/
def findNameFrom : List Char → Option (List Char)
  | [] => none
  | c :: rest =>
    match tryNameAt (c :: rest) with
    | some cap => some cap
    | none => findNameFrom rest

/-- `extractName` (`parseDtr.ts` lines 36–39): first capture of
`/NAME\s*:\s*([^\n\r]+)/i`, trimmed. -/
def extractName (text : String) : Option String :=
  (findNameFrom text.toList).map fun cap => jsTrim (String.mk cap)

def monthNames : List String :=
  ["JANUARY", "FEBRUARY", "MARCH", "APRIL", "MAY", "JUNE", "JULY",
   "AUGUST", "SEPTEMBER", "OCTOBER", "NOVEMBER", "DECEMBER"]

/-- Case-insensitive prefix match of a month name, returning the
remainder. -/
def stripMonth (name : List Char) (cs : List Char) : Option (List Char) :=
  match name, cs with
  | [], rest => some rest
  | _ :: _, [] => none
  | n :: ns, c :: rest => if toUpperAscii c = n then stripMonth ns rest else none

/-- After a month name: `\s*\/\s*(\d{4})`. -/
def tryMonthTail (cs : List Char) : Option (List Char) :=
  match cs.dropWhile isJsSpace with
  | '/' :: rest =>
    match (rest.dropWhile isJsSpace) with
    | d1 :: d2 :: d3 :: d4 :: _ =>
      if isAsciiDigit d1 && isAsciiDigit d2 && isAsciiDigit d3 && isAsciiDigit d4 then
        some [d1, d2, d3, d4]
      else none
    | _ => none
  | _ => none

/-- Try every month alternative, in the listed order, at this position. -/
def tryMonthAt (names : List String) (cs : List Char) : Option (String × List Char) :=
  match names with
  | [] => none
  | n :: ns =>
    match stripMonth n.toList cs with
    | some rest =>
      match tryMonthTail rest with
      | some year => some (n, year)
      | none => tryMonthAt ns cs
    | none => tryMonthAt ns cs

/-- Leftmost match over all positions. -/
def findMonthFrom : List Char → Option (String × List Char)
  | [] => none
  | c :: rest =>
    match tryMonthAt monthNames (c :: rest) with
    | some r => some r
    | none => findMonthFrom rest

/-- `extractMonth` (`parseDtr.ts` lines 41–46): first match of a full month
name, `/`, and a 4-digit year, rendered as `"{MONTH} / {YYYY}"`. -/
def extractMonth (text : String) : Option String :=
  (findMonthFrom text.toList).map fun r => r.1 ++ " / " ++ String.mk r.2

/-! ### The coordinate-path extractor -/

/-- Debug record for one day (`ParseDebugDay` in `parseDtr.ts`). -/
structure ParseDebugDay where
  day : Nat
  weekday : Int
  inSchedule : Option Bool
  timesFound : List String
  uniqueTimes : List String
  inTime : Option String
  outTime : Option String
deriving DecidableEq, Repr

/-- The extraction result common to the parsers (`ExtractedDTR` plus the
per-day debug trace). -/
structure ParsedDtr where
  employeeName : Option String
  monthLabel : Option String
  rows : List DtrRow
  rawText : String
  debugDays : List ParseDebugDay
deriving DecidableEq, Repr

/-- Per-day row materialization of `parseDtrFromTesseractWords`
(`parseDtr.ts` lines 182–221). -/
def mkDayRow (allowedWeekdays : Option (List Int)) (year monthIndex0 : Int)
    (day : Nat) (times : List String) : DtrRow × ParseDebugDay :=
  let uniqueTimes := dedupFirst times
  let io := resolveDay times
  let wd := weekdayOfDate year monthIndex0 (day : Int)
  let inSchedule := allowedWeekdays.map fun l => l.contains wd
  let debug : ParseDebugDay :=
    { day := day, weekday := wd, inSchedule := inSchedule, timesFound := times,
      uniqueTimes := uniqueTimes, inTime := io.1, outTime := io.2 }
  match io with
  | (some i, some o) => ({ day := day, amIn := some i, amOut := some o }, debug)
  | _ => ({ day := day }, debug)

/-- `parseDtrFromTesseractWords` (`parseDtr.ts` lines 82–234): clean and
trim the words, compute the day-column threshold `maxX * 0.22`, sort by
vertical midpoint, chain-cluster into rows, accumulate day → times, then
resolve each day in ascending day order. -/
def parseDtrFromTesseractWords (words : List WordBox) (rawText : String)
    (year monthIndex0 : Int) (allowedWeekdays : Option (List Int)) : ParsedDtr :=
  let cleanedWords := (words.map fun w =>
    ({ text := jsTrim w.text, x0 := w.x0, y0 := w.y0, x1 := w.x1, y1 := w.y1,
       yMid := 0, xMid := 0 } : Item)).filter fun w => !w.text.isEmpty
  let maxX := cleanedWords.foldl (fun m w => max m w.x1) 1
  let dayColMaxX := maxX * (22 / 100 : Rat)
  let items := List.insertionSort (fun a b => a.yMid ≤ b.yMid)
    (cleanedWords.map fun w => { w with yMid := (w.y0 + w.y1) / 2, xMid := (w.x0 + w.x1) / 2 })
  let clusters := clusterize items
  let dayMap := clusters.foldl (dayScan dayColMaxX) []
  let entries := List.insertionSort (fun a b => a.1 ≤ b.1) dayMap
  let rowsDebug := entries.map fun e => mkDayRow allowedWeekdays year monthIndex0 e.1 e.2
  { employeeName := extractName rawText, monthLabel := extractMonth rawText,
    rows := rowsDebug.map (·.1), rawText := rawText,
    debugDays := rowsDebug.map (·.2) }

/-- `parseDtrFromOcr` (`parseDtr.ts` lines 320–328): plain OCR text keeps
only the header metadata, with no rows. -/
def parseDtrFromOcr (rawText : String) : ParsedDtr :=
  { employeeName := extractName rawText, monthLabel := extractMonth rawText,
    rows := [], rawText := rawText, debugDays := [] }

/-! ### The text-layout fallback extractor (`parseDtr.ts` lines 240–317) -/

/-- `text.replace(/\s+/g, " ")`: every maximal whitespace run becomes one
space. -/
def collapseWsGo (inRun : Bool) : List Char → List Char
  | [] => []
  | c :: rest =>
    if isJsSpace c then
      if inRun then collapseWsGo true rest else ' ' :: collapseWsGo true rest
    else c :: collapseWsGo false rest

def collapseWs (cs : List Char) : List Char := collapseWsGo false cs

/-- `\b` between an optional previous and next character: exactly one of
the two is a word character. -/
def isWordBoundaryAt (prev next : Option Char) : Bool :=
  let pw := match prev with | some c => isWordChar c | none => false
  let nw := match next with | some c => isWordChar c | none => false
  pw != nw

/-- The inner time token of the split lookahead:
`\d{1,2}[:.]\d{2}\s*(?:AM|PM)` — case-sensitive, since the split pattern
carries no `i` flag.  The greedy `\d{1,2}` needs no backtracking because
`[:.]` contains no digit, and `\s*` must consume the whole whitespace run
because `A`/`P` are not whitespace. -/
def innerTimeAhead (cs : List Char) : Bool :=
  match takeDigits2 cs with
  | none => false
  | some (_, r) =>
    match r with
    | c :: m1 :: m2 :: rest =>
      if (c = ':' || c = '.') && isAsciiDigit m1 && isAsciiDigit m2 then
        match rest.dropWhile isJsSpace with
        | a :: m :: _ => (a = 'A' || a = 'P') && m = 'M'
        | _ => false
      else false
    | _ => false

/-- The lookahead `(?=\d{1,2}\s+(?:\d{1,2}[:.]\d{2}\s*(?:AM|PM)))` of the
row-splitting pattern (`parseDtr.ts` line 258).  `\s+` must consume its
whole run because the inner token starts with a digit. -/
def lookDayStart (cs : List Char) : Bool :=
  match takeDigits2 cs with
  | none => false
  | some (_, r) =>
    match r with
    | c :: rest => if isJsSpace c then innerTimeAhead (rest.dropWhile isJsSpace) else false
    | [] => false

/-- `String.prototype.split` on the zero-width pattern
`/\b(?=\d{1,2}\s+(?:\d{1,2}[:.]\d{2}\s*(?:AM|PM)))/g`: cut immediately
before every position (strictly inside the string) that is a word boundary
satisfying the lookahead.  A zero-width match at position 0 produces no
leading empty chunk, per the ECMAScript split algorithm. -/
def splitDayGo (prev : Char) (acc : List Char) : List Char → List (List Char)
  | [] => [acc.reverse]
  | c :: rest =>
    if isWordBoundaryAt (some prev) (some c) && lookDayStart (c :: rest) then
      acc.reverse :: splitDayGo c [c] rest
    else splitDayGo c (c :: acc) rest

def splitDayChunks : List Char → List (List Char)
  | [] => [[]]
  | c :: rest => splitDayGo c [c] rest

/-- One attempt of `timeRe = /\b(\d{1,2})\s*[:.]\s*(\d{2})\s*(AM|PM)\b/gi`
anchored at the current position (`prev` is the character before it).
Returns the captures and the number of characters consumed. -/
def tryTimeAt (prev : Option Char) (cs : List Char) : Option (Nat × String × Bool × Nat) :=
  match cs with
  | [] => none
  | c :: _ =>
    if !(isWordBoundaryAt prev (some c)) then none
    else
      match takeDigits2 cs with
      | none => none
      | some (hh, r1) =>
        match r1.dropWhile isJsSpace with
        | sep :: r2 =>
          if sep = ':' || sep = '.' then
            match r2.dropWhile isJsSpace with
            | m1 :: m2 :: r3 =>
              if isAsciiDigit m1 && isAsciiDigit m2 then
                match r3.dropWhile isJsSpace with
                | a :: m :: r4 =>
                  match apPair a m with
                  | some pm =>
                    if isWordBoundaryAt (some m) r4.head? then
                      some (hh, String.mk [m1, m2], pm, cs.length - r4.length)
                    else none
                  | none => none
                | _ => none
              else none
            | _ => none
          else none
        | [] => none

/-- The `while ((m = timeRe.exec(chunk)) !== null)` scan (`parseDtr.ts`
lines 269–273): leftmost, non-overlapping matches, resuming after each
match end; each match is normalized.  A positive `skip` counter walks the
scan position over the remainder of the previous match (one character per
step, so that `prev` is the character before the resume position). -/
def scanGo : Option Char → Nat → List Char → List String
  | _, _, [] => []
  | _, k+1, c :: rest => scanGo (some c) k rest
  | prev, 0, c :: rest =>
    match tryTimeAt prev (c :: rest) with
    | some (hh, mm, pm, n) => normalizeTime hh mm pm :: scanGo (some c) (n - 1) rest
    | none => scanGo (some c) 0 rest

def scanTimes (cs : List Char) : List String := scanGo none 0 cs

/-- Does this chunk belong to `day`?  `ln.trim().startsWith(day + " ")`. -/
def chunkStartsWithDay (day : Nat) (ln : String) : Bool :=
  jsStartsWith (jsTrim ln) (toString day ++ " ")

/-- The per-day computation of `parseDtrFromPdfText` (`parseDtr.ts` lines
263–302): the times of a day come from the first chunk whose trimmed text
starts with the day number and a space; they are scanned with `timeRe`,
deduplicated, and resolved. -/
def pdfDayResult (lines : List String) (allowedWeekdays : List Int)
    (year monthIndex0 : Int) (day : Nat) : ParseDebugDay × Option DtrRow :=
  let chunk := lines.find? (chunkStartsWithDay day)
  let timesFound := match chunk with
    | some c => scanTimes c.toList
    | none => []
  let uniqueTimes := dedupFirst timesFound
  let wd := weekdayOfDate year monthIndex0 (day : Int)
  let inSchedule := allowedWeekdays.contains wd
  let io := resolveDayPdf uniqueTimes
  ({ day := day, weekday := wd, inSchedule := some inSchedule,
     timesFound := timesFound, uniqueTimes := uniqueTimes,
     inTime := io.1, outTime := io.2 },
   match io with
   | (some i, some o) => some { day := day, amIn := some i, amOut := some o }
   | _ => none)

/-- The chunk list of `parseDtrFromPdfText`: whitespace-collapsed text,
split before each day-row-like position. -/
def pdfLines (text : String) : List String :=
  (splitDayChunks (collapseWs text.toList)).map String.mk

/-- `parseDtrFromPdfText` (`parseDtr.ts` lines 240–317). -/
def parseDtrFromPdfText (text : String) (year monthIndex0 : Int)
    (allowedWeekdays : List Int) : ParsedDtr :=
  let lines := pdfLines text
  let dayResults := (List.range 31).map fun i =>
    pdfDayResult lines allowedWeekdays year monthIndex0 (i + 1)
  { employeeName := extractName text, monthLabel := extractMonth text,
    rows := dayResults.filterMap (·.2), rawText := text,
    debugDays := dayResults.map (·.1) }

/-! ### Analysis definitions: the regex shape and stable-selection views -/

/-- A match of `/^(\d{1,2}):(\d{2})\s?(AM|PM)$/i`, stated following the
spec's words: one or two digits, a colon, exactly two digits, at most one
whitespace character, and a case-insensitive meridiem; `hh` and `mm` are the
numeric values of the two capture groups and `pm` tells whether the meridiem
was PM. -/
def ClockRegexMatch (t : String) (hh mm : Nat) (pm : Bool) : Prop :=
  ∃ (hs : List Char) (m1 m2 : Char) (sp : List Char) (a m : Char),
    t.toList = hs ++ ':' :: m1 :: m2 :: (sp ++ [a, m])
    ∧ (hs.length = 1 ∨ hs.length = 2)
    ∧ (∀ c ∈ hs, isAsciiDigit c)
    ∧ isAsciiDigit m1 ∧ isAsciiDigit m2
    ∧ (sp = [] ∨ ∃ w, sp = [w] ∧ isJsSpace w)
    ∧ (((a = 'A' ∨ a = 'a') ∧ pm = false) ∨ ((a = 'P' ∨ a = 'p') ∧ pm = true))
    ∧ (m = 'M' ∨ m = 'm')
    ∧ hh = natOfDigits hs ∧ mm = 10 * digitVal m1 + digitVal m2

/-- Combine a new earlier element `x` with the first-minimum of the later
elements: `x` wins exactly when its key is less than or equal. -/
def pickMin (x : String × Nat) : Option (String × Nat) → Option (String × Nat)
  | none => some x
  | some h => if x.2 ≤ h.2 then some x else some h

/-- Combine a new earlier element `x` with the last-maximum of the later
elements: `x` wins exactly when its key is strictly greater. -/
def pickMax (x : String × Nat) : Option (String × Nat) → Option (String × Nat)
  | none => some x
  | some h => if h.2 < x.2 then some x else some h

/-- The first element of a list of keyed readings whose key is minimal
(ties resolved to the earliest occurrence): the element a stable ascending
sort places first. -/
def firstMinBy : List (String × Nat) → Option (String × Nat)
  | [] => none
  | x :: l => pickMin x (firstMinBy l)

/-- The last element of a list of keyed readings whose key is maximal
(ties resolved to the latest occurrence): the element a stable ascending
sort places last. -/
def lastMaxBy : List (String × Nat) → Option (String × Nat)
  | [] => none
  | x :: l => pickMax x (lastMaxBy l)

/-! ### Concrete inputs used by the witness theorems -/

def c1RowW : DtrRow := { day := 3, amIn := some "6:15 AM", amOut := some "5:02 PM" }

def c1SchedW : ScheduleState := ⟨[⟨2, "07:00", "17:00"⟩]⟩

def c1DayW : PerDayOut :=
  { day := 3, weekday := 2, inSchedule := true, minutes := 647, rawMinutes := 647 }

def c10Rows : List DtrRow := [{ day := 3, amIn := some "6:15 AM", amOut := some "5:02 PM" }]

def c10Sched1 : ScheduleState := ⟨[⟨1, "07:00", "17:00"⟩, ⟨2, "08:00", "16:00"⟩]⟩

def c10Sched2 : ScheduleState := ⟨[⟨2, "01:00", "02:00"⟩, ⟨1, "09:00", "10:00"⟩]⟩

def c5Words : List WordBox :=
  [⟨"5", 1, 0, 4, 8⟩, ⟨"7:00AM", 6, 0, 12, 8⟩, ⟨"8:15PM", 14, 0, 20, 8⟩]

def c5Row : DtrRow := { day := 5, amIn := some "7:00 AM", amOut := some "8:15 PM" }

def c7WordsA : List WordBox :=
  [⟨"14", 2, 0, 6, 10⟩, ⟨"10:52", 10, 0, 30, 10⟩, ⟨"PM", 40, 0, 50, 10⟩]

def c7WordsB : List WordBox :=
  [⟨"14", 2, 0, 6, 10⟩, ⟨"6:30AM", 5, 0, 9, 10⟩, ⟨"10:52", 10, 0, 30, 10⟩,
   ⟨"PM", 40, 0, 50, 10⟩]

def c8Text : String := "DAY 9 07:58 AM 05:10 PM 10 08:01 AM 05:00 PM"

/-! ### Helper lemmas about the minute converters -/

theorem clockMinutes_le (hh mm : Nat) (pm : Bool) (h1 : 1 ≤ hh) (h2 : hh ≤ 12)
    (h3 : mm ≤ 59) : clockMinutes hh mm pm ≤ 1439 := by
  unfold clockMinutes
  cases pm <;> simp only [Bool.false_eq_true, if_false, if_true, reduceIte] <;> split <;> omega

theorem parseTimeToMinutes_bound {t : String} {v : Nat}
    (h : parseTimeToMinutes t = some v) : v ≤ 1439 := by
  unfold parseTimeToMinutes at h
  split at h
  · exact absurd h (by simp)
  · rename_i hh mm pm _
    split at h
    · exact absurd h (by simp)
    · rename_i hcond
      simp only [Bool.or_eq_true, decide_eq_true_eq, not_or, not_lt] at hcond
      simp only [Option.some.injEq] at h
      subst h
      exact clockMinutes_le hh mm pm hcond.1.1 hcond.1.2 hcond.2

theorem parseTimeToMinutes_agrees {t : String} {v : Nat}
    (h : parseTimeToMinutes t = some v) : timeToMinutesOfDay t = some v := by
  unfold parseTimeToMinutes at h
  unfold timeToMinutesOfDay
  split at h
  · exact absurd h (by simp)
  · rename_i hh mm pm heq
    split at h
    · exact absurd h (by simp)
    · simp only [Option.some.injEq] at h
      rw [heq]
      simpa using h

theorem foldl_add_minutes (l : List PerDayOut) (a : Int) :
    l.foldl (fun sum d => sum + d.minutes) a = a + (l.map (·.minutes)).sum := by
  induction l generalizing a with
  | nil => simp
  | cons x xs ih => simp [List.foldl_cons, ih, add_assoc]

/-! ### Characterization of the minutes-of-day regular expression -/

theorem natOfDigits_one (c : Char) : natOfDigits [c] = digitVal c := by
  simp [natOfDigits]

theorem natOfDigits_two (c d : Char) :
    natOfDigits [c, d] = 10 * digitVal c + digitVal d := by
  simp [natOfDigits]

theorem apPair_eq_some {a m : Char} {pm : Bool} :
    apPair a m = some pm ↔
      ((m = 'M' ∨ m = 'm') ∧
        (((a = 'A' ∨ a = 'a') ∧ pm = false) ∨ ((a = 'P' ∨ a = 'p') ∧ pm = true))) := by
  have hAP : ¬((a = 'A' ∨ a = 'a') ∧ (a = 'P' ∨ a = 'p')) := by
    rintro ⟨h1 | h1, h2 | h2⟩ <;> subst h1 <;> exact absurd h2 (by decide)
  unfold apPair
  split
  · rename_i hm
    replace hm : m = 'M' ∨ m = 'm' := by simpa using hm
    split
    · rename_i ha
      replace ha : a = 'A' ∨ a = 'a' := by simpa using ha
      simp only [Option.some.injEq]
      constructor
      · rintro rfl
        exact ⟨hm, Or.inl ⟨ha, rfl⟩⟩
      · rintro ⟨-, ⟨-, rfl⟩ | ⟨hp, rfl⟩⟩
        · rfl
        · exact absurd ⟨ha, hp⟩ hAP
    · rename_i ha
      replace ha : ¬(a = 'A' ∨ a = 'a') := by simpa using ha
      split
      · rename_i hp
        replace hp : a = 'P' ∨ a = 'p' := by simpa using hp
        simp only [Option.some.injEq]
        constructor
        · rintro rfl
          exact ⟨hm, Or.inr ⟨hp, rfl⟩⟩
        · rintro ⟨-, ⟨ha2, rfl⟩ | ⟨-, rfl⟩⟩
          · exact absurd ha2 ha
          · rfl
      · rename_i hp
        replace hp : ¬(a = 'P' ∨ a = 'p') := by simpa using hp
        constructor
        · intro h; cases h
        · rintro ⟨-, ⟨ha2, -⟩ | ⟨hp2, -⟩⟩
          · exact absurd ha2 ha
          · exact absurd hp2 hp
  · rename_i hm
    replace hm : ¬(m = 'M' ∨ m = 'm') := by simpa using hm
    constructor
    · intro h; cases h
    · rintro ⟨hm2, -⟩
      exact absurd hm2 hm

theorem matchTailAp_eq_some {l : List Char} {pm : Bool} :
    matchTailAp l = some pm ↔
      ((∃ a m, l = [a, m] ∧ apPair a m = some pm) ∨
        (∃ w a m, l = [w, a, m] ∧ isJsSpace w ∧ apPair a m = some pm)) := by
  match l with
  | [] => simp [matchTailAp]
  | [a] => simp [matchTailAp]
  | [a, m] =>
    show apPair a m = some pm ↔ _
    constructor
    · intro h
      exact Or.inl ⟨a, m, rfl, h⟩
    · rintro (⟨a', m', heq, h⟩ | ⟨w', a', m', heq, -, -⟩)
      · obtain ⟨rfl, rfl⟩ : a' = a ∧ m' = m := by simpa [eq_comm] using heq
        exact h
      · exact absurd heq (by simp)
  | [w, a, m] =>
    show (if isJsSpace w = true then apPair a m else none) = some pm ↔ _
    by_cases hw : isJsSpace w = true
    · rw [if_pos hw]
      constructor
      · intro h
        exact Or.inr ⟨w, a, m, rfl, hw, h⟩
      · rintro (⟨a', m', heq, -⟩ | ⟨w', a', m', heq, -, h⟩)
        · exact absurd heq (by simp)
        · obtain ⟨rfl, rfl, rfl⟩ : w' = w ∧ a' = a ∧ m' = m := by
            simpa [eq_comm] using heq
          exact h
    · rw [if_neg hw]
      constructor
      · intro h; cases h
      · rintro (⟨a', m', heq, -⟩ | ⟨w', a', m', heq, hw', -⟩)
        · exact absurd heq (by simp)
        · obtain ⟨rfl, rfl, rfl⟩ : w' = w ∧ a' = a ∧ m' = m := by
            simpa [eq_comm] using heq
          exact absurd hw' hw
  | a :: b :: c :: d :: rest => simp [matchTailAp]

theorem matchMmAp_eq_some {l : List Char} {mm : Nat} {pm : Bool} :
    matchMmAp l = some (mm, pm) ↔
      ∃ m1 m2 rest, l = m1 :: m2 :: rest ∧ isAsciiDigit m1 ∧ isAsciiDigit m2
        ∧ matchTailAp rest = some pm ∧ mm = 10 * digitVal m1 + digitVal m2 := by
  match l with
  | [] => simp [matchMmAp]
  | [m1] => simp [matchMmAp]
  | m1 :: m2 :: rest =>
    show (if (isAsciiDigit m1 && isAsciiDigit m2) = true then
        (matchTailAp rest).map fun pm => (10 * digitVal m1 + digitVal m2, pm)
      else none) = some (mm, pm) ↔ _
    by_cases hd : (isAsciiDigit m1 && isAsciiDigit m2) = true
    · have hd2 : isAsciiDigit m1 = true ∧ isAsciiDigit m2 = true := by simpa using hd
      rw [if_pos hd]
      constructor
      · intro h
        rcases Option.map_eq_some'.1 h with ⟨pm', hpm', heq⟩
        obtain ⟨rfl, rfl⟩ : mm = 10 * digitVal m1 + digitVal m2 ∧ pm' = pm := by
          have h1 := congrArg Prod.fst heq
          have h2 := congrArg Prod.snd heq
          simp at h1 h2
          exact ⟨h1.symm, h2⟩
        exact ⟨m1, m2, rest, rfl, hd2.1, hd2.2, hpm', rfl⟩
      · rintro ⟨m1', m2', rest', heq, -, -, htail, hmm⟩
        obtain ⟨rfl, rfl, rfl⟩ : m1' = m1 ∧ m2' = m2 ∧ rest' = rest := by
          simpa [eq_comm] using heq
        subst hmm
        rw [htail]
        rfl
    · have hd2 : ¬(isAsciiDigit m1 = true ∧ isAsciiDigit m2 = true) := by simpa using hd
      rw [if_neg hd]
      constructor
      · intro h; cases h
      · rintro ⟨m1', m2', rest', heq, h1, h2, -, -⟩
        obtain ⟨rfl, rfl, rfl⟩ : m1' = m1 ∧ m2' = m2 ∧ rest' = rest := by
          simpa [eq_comm] using heq
        exact absurd ⟨h1, h2⟩ hd2

theorem matchHmAp_eq_some {cs : List Char} {hh mm : Nat} {pm : Bool} :
    matchHmAp cs = some (hh, mm, pm) ↔
      ∃ (hs : List Char) (m1 m2 : Char) (sp : List Char) (a m : Char),
        cs = hs ++ ':' :: m1 :: m2 :: (sp ++ [a, m])
        ∧ (hs.length = 1 ∨ hs.length = 2)
        ∧ (∀ c ∈ hs, isAsciiDigit c)
        ∧ isAsciiDigit m1 ∧ isAsciiDigit m2
        ∧ (sp = [] ∨ ∃ w, sp = [w] ∧ isJsSpace w)
        ∧ (((a = 'A' ∨ a = 'a') ∧ pm = false) ∨ ((a = 'P' ∨ a = 'p') ∧ pm = true))
        ∧ (m = 'M' ∨ m = 'm')
        ∧ hh = natOfDigits hs ∧ mm = 10 * digitVal m1 + digitVal m2 := by
  have tailShape : ∀ {rest : List Char} {pm : Bool}, matchTailAp rest = some pm →
      ∃ (sp : List Char) (a m : Char), rest = sp ++ [a, m]
        ∧ (sp = [] ∨ ∃ w, sp = [w] ∧ isJsSpace w)
        ∧ (((a = 'A' ∨ a = 'a') ∧ pm = false) ∨ ((a = 'P' ∨ a = 'p') ∧ pm = true))
        ∧ (m = 'M' ∨ m = 'm') := by
    intro rest pm h
    rcases matchTailAp_eq_some.1 h with ⟨a, m, rfl, hap⟩ | ⟨w, a, m, rfl, hw, hap⟩
    · rcases apPair_eq_some.1 hap with ⟨hm, hA⟩
      exact ⟨[], a, m, rfl, Or.inl rfl, hA, hm⟩
    · rcases apPair_eq_some.1 hap with ⟨hm, hA⟩
      exact ⟨[w], a, m, rfl, Or.inr ⟨w, rfl, hw⟩, hA, hm⟩
  have tailBuild : ∀ {sp : List Char} {a m : Char} {pm : Bool},
      (sp = [] ∨ ∃ w, sp = [w] ∧ isJsSpace w) →
      (((a = 'A' ∨ a = 'a') ∧ pm = false) ∨ ((a = 'P' ∨ a = 'p') ∧ pm = true)) →
      (m = 'M' ∨ m = 'm') →
      matchTailAp (sp ++ [a, m]) = some pm := by
    intro sp a m pm hsp hA hm
    have hap : apPair a m = some pm := apPair_eq_some.2 ⟨hm, hA⟩
    rcases hsp with rfl | ⟨w, rfl, hw⟩
    · exact matchTailAp_eq_some.2 (Or.inl ⟨a, m, rfl, hap⟩)
    · exact matchTailAp_eq_some.2 (Or.inr ⟨w, a, m, rfl, hw, hap⟩)
  have hne : ∀ {c : Char}, isAsciiDigit c = true → ¬(c = ':') := by
    intro c hc e
    subst e
    exact absurd hc (by decide)
  constructor
  · intro h
    match cs with
    | [] => exact absurd h (by simp [matchHmAp])
    | [c1] => exact absurd h (by simp [matchHmAp])
    | c1 :: c2 :: rest =>
      simp only [matchHmAp] at h
      by_cases h1 : isAsciiDigit c1 = true
      swap
      · rw [if_neg h1] at h
        cases h
      rw [if_pos h1] at h
      by_cases h2 : c2 = ':'
      · subst h2
        rw [if_pos rfl] at h
        rcases Option.map_eq_some'.1 h with ⟨⟨mm', pm'⟩, hmm', heq⟩
        obtain ⟨rfl, rfl, rfl⟩ : hh = digitVal c1 ∧ mm = mm' ∧ pm = pm' := by
          simpa [Prod.ext_iff, eq_comm] using heq
        rcases matchMmAp_eq_some.1 hmm' with ⟨m1, m2, rest', rfl, hm1, hm2, htail, rfl⟩
        rcases tailShape htail with ⟨sp, a, m, rfl, hsp, hA, hm⟩
        exact ⟨[c1], m1, m2, sp, a, m, rfl, Or.inl rfl, by simpa using h1, hm1, hm2,
          hsp, hA, hm, (natOfDigits_one c1).symm, rfl⟩
      · rw [if_neg h2] at h
        by_cases h3 : isAsciiDigit c2 = true
        swap
        · rw [if_neg h3] at h
          cases h
        rw [if_pos h3] at h
        rcases rest with _ | ⟨c3, rest2⟩
        · cases h
        · simp only [matchHmNext] at h
          by_cases h4 : c3 = ':'
          swap
          · rw [if_neg h4] at h
            cases h
          subst h4
          rw [if_pos rfl] at h
          rcases Option.map_eq_some'.1 h with ⟨⟨mm', pm'⟩, hmm', heq⟩
          obtain ⟨rfl, rfl, rfl⟩ : hh = 10 * digitVal c1 + digitVal c2 ∧ mm = mm' ∧ pm = pm' := by
            simpa [Prod.ext_iff, eq_comm] using heq
          rcases matchMmAp_eq_some.1 hmm' with ⟨m1, m2, rest', rfl, hm1, hm2, htail, rfl⟩
          rcases tailShape htail with ⟨sp, a, m, rfl, hsp, hA, hm⟩
          refine ⟨[c1, c2], m1, m2, sp, a, m, rfl, Or.inr rfl, ?_, hm1, hm2,
            hsp, hA, hm, (natOfDigits_two c1 c2).symm, rfl⟩
          intro c hc
          simp only [List.mem_cons, List.not_mem_nil, or_false] at hc
          rcases hc with rfl | rfl
          · exact h1
          · exact h3
  · rintro ⟨hs, m1, m2, sp, a, m, heq, hlen, hdig, hm1, hm2, hsp, hA, hm, hhh, hmmv⟩
    subst heq
    subst hhh
    subst hmmv
    have hmm : matchMmAp (m1 :: m2 :: (sp ++ [a, m]))
        = some (10 * digitVal m1 + digitVal m2, pm) :=
      matchMmAp_eq_some.2 ⟨m1, m2, sp ++ [a, m], rfl, hm1, hm2, tailBuild hsp hA hm, rfl⟩
    rcases hs with _ | ⟨d1, hs'⟩
    · simp at hlen
    rcases hs' with _ | ⟨d2, hs''⟩
    · have hd1 : isAsciiDigit d1 = true := hdig d1 (by simp)
      simp [matchHmAp, hd1, hmm, natOfDigits_one]
    · rcases hs'' with _ | ⟨d3, hs'''⟩
      · have hd1 : isAsciiDigit d1 = true := hdig d1 (by simp)
        have hd2 : isAsciiDigit d2 = true := hdig d2 (by simp)
        simp [matchHmAp, matchHmNext, hd1, hd2, hne hd2, hmm, natOfDigits_two]
      · simp at hlen

/-- Claim C3: `timeToMinutesOfDay` returns no value exactly when the string
does not match `^\d{1,2}:\d{2}\s?(AM|PM)$` case-insensitively; when it
matches with hour `hh`, minute `mm` and meridiem `ap`, the result is
`h*60+mm` where `h = 0` if `ap` is AM and `hh = 12`, `h = hh + 12` if `ap`
is PM and `hh ≠ 12`, and `h = hh` otherwise; in particular `"12:00 AM"`
gives 0, `"12:00 PM"` gives 720 and `"11:59 PM"` gives 1439. -/
theorem timeToMinutesOfDay_regex_spec :
    (∀ t : String, timeToMinutesOfDay t = none ↔ ¬ ∃ hh mm pm, ClockRegexMatch t hh mm pm)
    ∧ (∀ (t : String) (hh mm : Nat) (pm : Bool), ClockRegexMatch t hh mm pm →
        timeToMinutesOfDay t
          = some ((if pm then (if hh ≠ 12 then hh + 12 else hh)
              else (if hh = 12 then 0 else hh)) * 60 + mm))
    ∧ timeToMinutesOfDay "12:00 AM" = some 0
    ∧ timeToMinutesOfDay "12:00 PM" = some 720
    ∧ timeToMinutesOfDay "11:59 PM" = some 1439 := by
  have key : ∀ (t : String) (hh mm : Nat) (pm : Bool),
      matchHmAp t.toList = some (hh, mm, pm) ↔ ClockRegexMatch t hh mm pm := by
    intro t hh mm pm
    unfold ClockRegexMatch
    exact matchHmAp_eq_some
  refine ⟨?_, ?_, by decide, by decide, by decide⟩
  · intro t
    unfold timeToMinutesOfDay
    constructor
    · intro h hex
      rcases hex with ⟨hh, mm, pm, hcm⟩
      rw [(key t hh mm pm).2 hcm] at h
      simp at h
    · intro hne
      rcases hmatch : matchHmAp t.toList with _ | ⟨⟨hh, mm, pm⟩⟩
      · rfl
      · exact absurd ⟨hh, mm, pm, (key t hh mm pm).1 hmatch⟩ hne
  · intro t hh mm pm hcm
    unfold timeToMinutesOfDay
    rw [(key t hh mm pm).2 hcm]
    rfl

/-- Witness for C3 at `"11:59 PM"`, exhibiting the regex decomposition. -/
theorem timeToMinutesOfDay_regex_spec_witness :
    timeToMinutesOfDay "11:59 PM" = some ((11 + 12) * 60 + 59) := by
  have hcm : ClockRegexMatch "11:59 PM" 11 59 true :=
    ⟨['1', '1'], '5', '9', [' '], 'P', 'M', by decide, by decide, by decide,
      by decide, by decide, Or.inr ⟨' ', rfl, by decide⟩, Or.inr ⟨Or.inl rfl, rfl⟩,
      Or.inl rfl, by decide, by decide⟩
  have h := timeToMinutesOfDay_regex_spec.2.1 "11:59 PM" 11 59 true hcm
  simpa using h

/-! ### Claim theorems for the schedule-filtered aggregator -/

/-- Claim C1: for every list of rows, schedule, year and 0-based month,
`computeTotalMinutes` computes per day raw minutes
`diffMinutes(amIn, amOut) + diffMinutes(pmIn, pmOut)`; counted minutes equal
the raw value exactly when the day's weekday is among the schedule items'
weekdays and 0 otherwise; `rawMinutes` always carries the raw value; and
`totalMinutes` is the sum of the counted minutes over all rows. -/
theorem computeTotalMinutes_spec (rows : List DtrRow) (schedule : ScheduleState)
    (year monthIndex0 : Int) :
    (computeTotalMinutes rows schedule year monthIndex0).2.length = rows.length
    ∧ (∀ (i : Nat) (r : DtrRow) (d : PerDayOut), rows[i]? = some r →
        (computeTotalMinutes rows schedule year monthIndex0).2[i]? = some d →
          d.rawMinutes = diffMinutes r.amIn r.amOut + diffMinutes r.pmIn r.pmOut
          ∧ d.minutes = (if (schedule.items.map (·.weekday)).contains
              (weekdayOfDate year monthIndex0 (r.day : Int)) then d.rawMinutes else 0))
    ∧ (computeTotalMinutes rows schedule year monthIndex0).1
        = ((computeTotalMinutes rows schedule year monthIndex0).2.map (·.minutes)).sum := by
  refine ⟨by simp [computeTotalMinutes], ?_, ?_⟩
  · intro i r d hr hd
    simp only [computeTotalMinutes, List.getElem?_map, hr, Option.map_some',
      Option.some.injEq] at hd
    subst hd
    refine ⟨rfl, ?_⟩
    by_cases hc : (schedule.items.map (·.weekday)).contains
        (weekdayOfDate year monthIndex0 (r.day : Int)) = true
    · simp [hc]
    · simp [hc]
  · simp only [computeTotalMinutes]
    rw [foldl_add_minutes]
    simp

/-- Witness for C1 at a concrete input (day 3 of June 2025 is a Tuesday,
weekday 2, which is in the one-item schedule, so 647 raw minutes count). -/
theorem computeTotalMinutes_spec_witness :
    c1DayW.rawMinutes = diffMinutes c1RowW.amIn c1RowW.amOut
        + diffMinutes c1RowW.pmIn c1RowW.pmOut
    ∧ c1DayW.minutes = (if (c1SchedW.items.map (·.weekday)).contains
        (weekdayOfDate 2025 5 (c1RowW.day : Int)) then c1DayW.rawMinutes else 0) :=
  (computeTotalMinutes_spec [c1RowW] c1SchedW 2025 5).2.1 0 c1RowW c1DayW
    (by decide) (by decide)

/-- Claim C2: on two strings accepted by the minutes-of-day parser,
`diffMinutes` is end minus start, or `(1440 − start) + end` when the end is
strictly earlier (crossed midnight), hence never negative; the canonical
midnight example gives 20; and whenever an argument is missing or fails to
parse the result is 0 (the function is total: it never fails). -/
theorem diffMinutes_spec :
    (∀ s e ms me, parseTimeToMinutes s = some ms → parseTimeToMinutes e = some me →
      diffMinutes (some s) (some e)
        = if me < ms then 1440 - (ms : Int) + (me : Int) else (me : Int) - (ms : Int))
    ∧ (∀ os oe, 0 ≤ diffMinutes os oe)
    ∧ diffMinutes (some "11:50 PM") (some "12:10 AM") = 20
    ∧ (∀ oe, diffMinutes none oe = 0) ∧ (∀ os, diffMinutes os none = 0)
    ∧ (∀ s e, parseTimeToMinutes s = none ∨ parseTimeToMinutes e = none →
        diffMinutes (some s) (some e) = 0) := by
  have hempty : parseTimeToMinutes "" = none := by decide
  refine ⟨?_, ?_, by decide, fun oe => rfl, fun os => by cases os <;> rfl, ?_⟩
  · intro s e ms me hs he
    have hs0 : s ≠ "" := fun h => by rw [h, hempty] at hs; cases hs
    have he0 : e ≠ "" := fun h => by rw [h, hempty] at he; cases he
    simp only [diffMinutes, hs0, he0, hs, he, if_false, decide_eq_true_eq]
    norm_num
  · intro os oe
    match os, oe with
    | none, _ => simp [diffMinutes]
    | some s, none => simp [diffMinutes]
    | some s, some e =>
      simp only [diffMinutes]
      split
      · omega
      · match hs : parseTimeToMinutes s, he : parseTimeToMinutes e with
        | none, _ => simp
        | some sm, none => simp
        | some sm, some em =>
          have := parseTimeToMinutes_bound hs
          simp only []
          split <;> omega
  · intro s e h
    simp only [diffMinutes]
    split
    · rfl
    · rcases h with h | h
      · rw [h]
      · rw [h]
        cases parseTimeToMinutes s <;> rfl

/-- Witness for C2 at the midnight-crossing pair. -/
theorem diffMinutes_spec_witness :
    diffMinutes (some "11:50 PM") (some "12:10 AM")
      = if (10 : Nat) < 1430 then 1440 - (1430 : Int) + 10 else (10 : Int) - 1430 :=
  diffMinutes_spec.1 "11:50 PM" "12:10 AM" 1430 10 (by decide) (by decide)

/-- Counterexample for claim C4 as stated: `timeToMinutesOfDay` (from
`parseDtr.ts`) has no range check, and on the matching input `"13:00 PM"`
returns 1500, which exceeds 1439. -/
theorem minutesOfDay_range_cex :
    timeToMinutesOfDay "13:00 PM" = some 1500 ∧ ¬((1500 : Nat) ≤ 1439) := by
  constructor
  · decide
  · decide

/-- Amended claim C4: whenever `parseTimeToMinutes` (pdfHasText.ts) returns a
value, that value lies between 0 and 1439; `timeToMinutesOfDay`
(parseDtr.ts) performs no range validation, but agrees with
`parseTimeToMinutes` (and hence satisfies the same bound) on every input
that `parseTimeToMinutes` accepts. -/
theorem minutesOfDay_range_amended :
    (∀ t v, parseTimeToMinutes t = some v → v ≤ 1439)
    ∧ (∀ t v, parseTimeToMinutes t = some v → timeToMinutesOfDay t = some v) :=
  ⟨fun _ _ h => parseTimeToMinutes_bound h, fun _ _ h => parseTimeToMinutes_agrees h⟩

/-- Witness for the amended C4 at `"11:59 PM"`. -/
theorem minutesOfDay_range_amended_witness :
    (1439 : Nat) ≤ 1439 ∧ timeToMinutesOfDay "11:59 PM" = some 1439 :=
  ⟨minutesOfDay_range_amended.1 "11:59 PM" 1439 (by decide),
   minutesOfDay_range_amended.2 "11:59 PM" 1439 (by decide)⟩

/-- Claim C10: `computeTotalMinutes` depends on the schedule only through the
set of weekdays of its items — two schedules whose items cover the same
weekday set (any order, any start/end times) produce identical totals and
identical per-day results. -/
theorem computeTotalMinutes_schedule_set_only (rows : List DtrRow)
    (s1 s2 : ScheduleState) (year monthIndex0 : Int)
    (hw : ∀ w : Int, (s1.items.map (·.weekday)).contains w
        = (s2.items.map (·.weekday)).contains w) :
    computeTotalMinutes rows s1 year monthIndex0
      = computeTotalMinutes rows s2 year monthIndex0 := by
  simp only [computeTotalMinutes]
  have hmap : (rows.map fun r =>
      let wd := weekdayOfDate year monthIndex0 (r.day : Int)
      let inSchedule := (s1.items.map (·.weekday)).contains wd
      let minutes := diffMinutes r.amIn r.amOut + diffMinutes r.pmIn r.pmOut
      ({ day := r.day, weekday := wd, inSchedule := inSchedule,
         minutes := if inSchedule then minutes else 0, rawMinutes := minutes } : PerDayOut))
      = rows.map fun r =>
      let wd := weekdayOfDate year monthIndex0 (r.day : Int)
      let inSchedule := (s2.items.map (·.weekday)).contains wd
      let minutes := diffMinutes r.amIn r.amOut + diffMinutes r.pmIn r.pmOut
      ({ day := r.day, weekday := wd, inSchedule := inSchedule,
         minutes := if inSchedule then minutes else 0, rawMinutes := minutes } : PerDayOut) :=
    List.map_congr_left fun r _ => by simp only [hw]
  rw [hmap]

/-- Witness for C10: two schedules with weekday set {1, 2} in different item
order and with different start/end times yield identical results. -/
theorem computeTotalMinutes_schedule_set_only_witness :
    computeTotalMinutes c10Rows c10Sched1 2025 5
      = computeTotalMinutes c10Rows c10Sched2 2025 5 :=
  computeTotalMinutes_schedule_set_only c10Rows c10Sched1 c10Sched2 2025 5
    (fun w => by
      simp only [c10Sched1, c10Sched2, List.map_cons, List.map_nil,
        List.contains_cons, List.contains_nil, Bool.or_false]
      exact Bool.or_comm _ _)

/-! ### Stability of the minute-sorted selection -/

theorem mem_of_getLastEq {α : Type} {l : List α} {z : α} (h : l.getLast? = some z) :
    z ∈ l := by
  cases l with
  | nil => cases h
  | cons a t =>
    have hne : (a :: t) ≠ [] := by simp
    rw [List.getLast?_eq_getLast _ hne] at h
    have hz : (a :: t).getLast hne = z := by injection h
    exact hz ▸ List.getLast_mem hne

theorem firstMinBy_eq_none {l : List (String × Nat)} (h : firstMinBy l = none) :
    l = [] := by
  cases l with
  | nil => rfl
  | cons a t =>
    exfalso
    simp only [firstMinBy] at h
    rcases h' : firstMinBy t with _ | z <;> rw [h'] at h <;> simp only [pickMin] at h
    · cases h
    · split at h <;> cases h

theorem lastMaxBy_eq_none {l : List (String × Nat)} (h : lastMaxBy l = none) :
    l = [] := by
  cases l with
  | nil => rfl
  | cons a t =>
    exfalso
    simp only [lastMaxBy] at h
    rcases h' : lastMaxBy t with _ | z <;> rw [h'] at h <;> simp only [pickMax] at h
    · cases h
    · split at h <;> cases h

theorem head?_insertionSort (l : List (String × Nat)) :
    (List.insertionSort leKey l).head? = firstMinBy l := by
  induction l with
  | nil => rfl
  | cons x l ih =>
    show (List.orderedInsert leKey x (List.insertionSort leKey l)).head? = firstMinBy (x :: l)
    rcases hs : List.insertionSort leKey l with _ | ⟨y, t⟩
    · have hperm := List.perm_insertionSort leKey l
      rw [hs] at hperm
      have hl : l = [] := hperm.nil_eq.symm
      subst hl
      rfl
    · have hy : firstMinBy l = some y := by rw [← ih, hs]; rfl
      by_cases hxy : x.2 ≤ y.2
      · have hxy' : leKey x y := hxy
        simp only [List.orderedInsert, if_pos hxy', List.head?_cons]
        simp only [firstMinBy, hy, pickMin, if_pos hxy]
      · have hxy' : ¬ leKey x y := hxy
        simp only [List.orderedInsert, if_neg hxy', List.head?_cons]
        simp only [firstMinBy, hy, pickMin, if_neg hxy]

theorem getLast?_orderedInsert (x : String × Nat) (s : List (String × Nat))
    (hs : List.Sorted leKey s) :
    (List.orderedInsert leKey x s).getLast?
      = some (match s.getLast? with
              | none => x
              | some z => if z.2 < x.2 then x else z) := by
  induction s with
  | nil => rfl
  | cons y t ih =>
    rw [List.sorted_cons] at hs
    by_cases hxy : x.2 ≤ y.2
    · have hxy' : leKey x y := hxy
      simp only [List.orderedInsert, if_pos hxy']
      rw [List.getLast?_cons_cons]
      rcases hz : (y :: t).getLast? with _ | z
      · rw [List.getLast?_eq_none_iff] at hz
        cases hz
      · have hzmem : z ∈ y :: t := mem_of_getLastEq hz
        have hyz : y.2 ≤ z.2 := by
          rcases List.mem_cons.1 hzmem with rfl | hzt
          · exact Nat.le_refl _
          · exact hs.1 z hzt
        have hnlt : ¬ (z.2 < x.2) := by omega
        simp [hnlt]
    · have hxy' : ¬ leKey x y := hxy
      simp only [List.orderedInsert, if_neg hxy']
      rcases t with _ | ⟨t0, t'⟩
      · simp only [List.orderedInsert_nil]
        rw [List.getLast?_cons_cons]
        have hlt : y.2 < x.2 := by omega
        simp [hlt]
      · have ih' := ih hs.2
        rcases horr : List.orderedInsert leKey x (t0 :: t') with _ | ⟨o, os⟩
        · exfalso
          simp only [List.orderedInsert] at horr
          split at horr <;> cases horr
        · rw [List.getLast?_cons_cons, ← horr, ih', List.getLast?_cons_cons]

theorem getLast?_insertionSort (l : List (String × Nat)) :
    (List.insertionSort leKey l).getLast? = lastMaxBy l := by
  induction l with
  | nil => rfl
  | cons x l ih =>
    show (List.orderedInsert leKey x (List.insertionSort leKey l)).getLast? = lastMaxBy (x :: l)
    rw [getLast?_orderedInsert x _ (List.sorted_insertionSort leKey l), ih]
    rcases hlm : lastMaxBy l with _ | z
    · simp [lastMaxBy, hlm, pickMax]
    · simp only [lastMaxBy, hlm, pickMax]
      by_cases hzx : z.2 < x.2
      · simp [hzx]
      · simp [hzx]

theorem firstMinBy_decomp {l : List (String × Nat)} :
    ∀ {x : String × Nat}, firstMinBy l = some x →
      ∃ l1 l2, l = l1 ++ x :: l2 ∧ (∀ y ∈ l1, x.2 < y.2) ∧ (∀ y ∈ l2, x.2 ≤ y.2) := by
  induction l with
  | nil => intro x h; cases h
  | cons a l ih =>
    intro x h
    simp only [firstMinBy] at h
    rcases hl : firstMinBy l with _ | z
    · rw [hl] at h
      simp only [pickMin, Option.some.injEq] at h
      subst h
      have hnil : l = [] := firstMinBy_eq_none hl
      subst hnil
      exact ⟨[], [], rfl, by simp, by simp⟩
    · rw [hl] at h
      simp only [pickMin] at h
      rcases ih hl with ⟨m1, m2, hsplit, hm1, hm2⟩
      by_cases haz : a.2 ≤ z.2
      · rw [if_pos haz] at h
        injection h with h
        subst h
        refine ⟨[], l, rfl, by simp, ?_⟩
        intro y hy
        have hzle : z.2 ≤ y.2 := by
          rw [hsplit] at hy
          rcases List.mem_append.1 hy with hy1 | hy2
          · exact Nat.le_of_lt (hm1 y hy1)
          · rcases List.mem_cons.1 hy2 with rfl | hy3
            · exact Nat.le_refl _
            · exact hm2 y hy3
        omega
      · rw [if_neg haz] at h
        injection h with h
        subst h
        refine ⟨a :: m1, m2, by simp [hsplit], ?_, hm2⟩
        intro y hy
        rcases List.mem_cons.1 hy with rfl | hy1
        · omega
        · exact hm1 y hy1

theorem lastMaxBy_decomp {l : List (String × Nat)} :
    ∀ {x : String × Nat}, lastMaxBy l = some x →
      ∃ l1 l2, l = l1 ++ x :: l2 ∧ (∀ y ∈ l1, y.2 ≤ x.2) ∧ (∀ y ∈ l2, y.2 < x.2) := by
  induction l with
  | nil => intro x h; cases h
  | cons a l ih =>
    intro x h
    simp only [lastMaxBy] at h
    rcases hl : lastMaxBy l with _ | z
    · rw [hl] at h
      simp only [pickMax, Option.some.injEq] at h
      subst h
      have hnil : l = [] := lastMaxBy_eq_none hl
      subst hnil
      exact ⟨[], [], rfl, by simp, by simp⟩
    · rw [hl] at h
      simp only [pickMax] at h
      rcases ih hl with ⟨m1, m2, hsplit, hm1, hm2⟩
      by_cases hza : z.2 < a.2
      · rw [if_pos hza] at h
        injection h with h
        subst h
        refine ⟨[], l, rfl, by simp, ?_⟩
        intro y hy
        have hyz : y.2 ≤ z.2 := by
          rw [hsplit] at hy
          rcases List.mem_append.1 hy with hy1 | hy2
          · exact hm1 y hy1
          · rcases List.mem_cons.1 hy2 with rfl | hy3
            · exact Nat.le_refl _
            · exact Nat.le_of_lt (hm2 y hy3)
        omega
      · rw [if_neg hza] at h
        injection h with h
        subst h
        refine ⟨a :: m1, m2, by simp [hsplit], ?_, hm2⟩
        intro y hy
        rcases List.mem_cons.1 hy with rfl | hy1
        · omega
        · exact hm1 y hy1

theorem mem_validReadings {u : List String} {x : String × Nat}
    (h : x ∈ validReadings u) : x.1 ∈ u ∧ timeToMinutesOfDay x.1 = some x.2 := by
  rcases List.mem_filterMap.1 h with ⟨t, ht, hmap⟩
  rcases Option.map_eq_some'.1 hmap with ⟨mv, hmv, heq⟩
  cases heq
  exact ⟨ht, hmv⟩

theorem resolveCore_sel {u : List String} (h2 : 2 ≤ (sortedValid u).length) :
    ∃ tin mi tout mo,
      resolveCore u = (some tin, some tout)
      ∧ firstMinBy (validReadings u) = some (tin, mi)
      ∧ lastMaxBy (validReadings u) = some (tout, mo) := by
  unfold resolveCore
  rw [if_pos h2]
  rcases hh : (sortedValid u).head? with _ | ⟨tin, mi⟩
  · rw [List.head?_eq_none_iff] at hh
    rw [hh] at h2
    simp at h2
  rcases hl : (sortedValid u).getLast? with _ | ⟨tout, mo⟩
  · rw [List.getLast?_eq_none_iff] at hl
    rw [hl] at h2
    simp at h2
  refine ⟨tin, mi, tout, mo, ?_, ?_, ?_⟩
  · rfl
  · rw [← head?_insertionSort]
    exact hh
  · rw [← getLast?_insertionSort]
    exact hl

theorem resolveCore_cases (u : List String) :
    resolveCore u = (none, none)
    ∨ ∃ tin mi tout mo, resolveCore u = (some tin, some tout)
        ∧ timeToMinutesOfDay tin = some mi ∧ timeToMinutesOfDay tout = some mo
        ∧ mi ≤ mo := by
  by_cases h2 : 2 ≤ (sortedValid u).length
  · right
    rcases resolveCore_sel h2 with ⟨tin, mi, tout, mo, hres, hfm, hlm⟩
    rcases firstMinBy_decomp hfm with ⟨l1, l2, hsplit, hl1, hl2⟩
    rcases lastMaxBy_decomp hlm with ⟨k1, k2, ksplit, hk1, hk2⟩
    have htinmem : ((tin, mi) : String × Nat) ∈ validReadings u := by
      rw [hsplit]
      exact List.mem_append_right _ (List.mem_cons_self _ _)
    have htoutmem : ((tout, mo) : String × Nat) ∈ validReadings u := by
      rw [ksplit]
      exact List.mem_append_right _ (List.mem_cons_self _ _)
    have hle : mi ≤ mo := by
      rw [hsplit] at htoutmem
      rcases List.mem_append.1 htoutmem with hm | hm
      · exact Nat.le_of_lt (hl1 _ hm)
      · rcases List.mem_cons.1 hm with heq | hm2
        · have : mo = mi := congrArg Prod.snd heq
          omega
        · exact hl2 _ hm2
    exact ⟨tin, mi, tout, mo, hres, (mem_validReadings htinmem).2,
      (mem_validReadings htoutmem).2, hle⟩
  · left
    unfold resolveCore
    rw [if_neg h2]

theorem resolveDayPdf_cases (u : List String) :
    resolveDayPdf u = (none, none)
    ∨ ∃ tin mi tout mo, resolveDayPdf u = (some tin, some tout)
        ∧ timeToMinutesOfDay tin = some mi ∧ timeToMinutesOfDay tout = some mo
        ∧ mi ≤ mo := by
  unfold resolveDayPdf
  by_cases hg : 2 ≤ u.length
  · rw [if_pos hg]
    exact resolveCore_cases u
  · left
    rw [if_neg hg]

/-! ### Row-level consequences for the two extractors -/

theorem mkDayRow_row (aw : Option (List Int)) (year monthIndex0 : Int) (day : Nat)
    (times : List String) :
    ((mkDayRow aw year monthIndex0 day times).1.amIn = none
      ∧ (mkDayRow aw year monthIndex0 day times).1.amOut = none)
    ∨ ∃ tin mi tout mo,
        (mkDayRow aw year monthIndex0 day times).1.amIn = some tin
        ∧ (mkDayRow aw year monthIndex0 day times).1.amOut = some tout
        ∧ timeToMinutesOfDay tin = some mi ∧ timeToMinutesOfDay tout = some mo
        ∧ mi ≤ mo := by
  rcases resolveCore_cases (dedupFirst times) with hres | ⟨tin, mi, tout, mo, hres, h1, h2, h3⟩
  · have hres' : resolveDay times = (none, none) := hres
    left
    constructor <;> simp [mkDayRow, hres']
  · have hres' : resolveDay times = (some tin, some tout) := hres
    right
    refine ⟨tin, mi, tout, mo, ?_, ?_, h1, h2, h3⟩ <;> simp [mkDayRow, hres']

theorem pdfDayResult_some {lines : List String} {aw : List Int} {year m0 : Int}
    {day : Nat} {r : DtrRow}
    (h : (pdfDayResult lines aw year m0 day).2 = some r) :
    r.day = day ∧ ∃ tin mi tout mo, r.amIn = some tin ∧ r.amOut = some tout
      ∧ timeToMinutesOfDay tin = some mi ∧ timeToMinutesOfDay tout = some mo
      ∧ mi ≤ mo := by
  simp only [pdfDayResult] at h
  rcases resolveDayPdf_cases (dedupFirst (match lines.find? (chunkStartsWithDay day) with
    | some c => scanTimes c.toList
    | none => [])) with hres | ⟨tin, mi, tout, mo, hres, h1, h2, h3⟩
  · rw [hres] at h
    simp at h
  · rw [hres] at h
    simp only [Option.some.injEq] at h
    subst h
    exact ⟨rfl, tin, mi, tout, mo, rfl, rfl, h1, h2, h3⟩

theorem pdfDayResult_none {lines : List String} {aw : List Int} {year m0 : Int}
    {day : Nat} (h : lines.find? (chunkStartsWithDay day) = none) :
    (pdfDayResult lines aw year m0 day).2 = none := by
  simp only [pdfDayResult, h]
  rfl

/-- Claim C5: every row either designates both an in-time and an out-time,
with the in-time's minutes-of-day at most the out-time's, or designates
neither — for both extractors; and a day with fewer than 2 distinct valid
time readings designates neither. -/
theorem extractor_inout_invariant :
    (∀ (words : List WordBox) (rawText : String) (year monthIndex0 : Int)
        (aw : Option (List Int)) (r : DtrRow),
        r ∈ (parseDtrFromTesseractWords words rawText year monthIndex0 aw).rows →
        (∃ tin mi tout mo, r.amIn = some tin ∧ r.amOut = some tout
          ∧ timeToMinutesOfDay tin = some mi ∧ timeToMinutesOfDay tout = some mo
          ∧ mi ≤ mo)
        ∨ (r.amIn = none ∧ r.amOut = none))
    ∧ (∀ (text : String) (year monthIndex0 : Int) (aw : List Int) (r : DtrRow),
        r ∈ (parseDtrFromPdfText text year monthIndex0 aw).rows →
        (∃ tin mi tout mo, r.amIn = some tin ∧ r.amOut = some tout
          ∧ timeToMinutesOfDay tin = some mi ∧ timeToMinutesOfDay tout = some mo
          ∧ mi ≤ mo)
        ∨ (r.amIn = none ∧ r.amOut = none))
    ∧ (∀ times : List String, (sortedValid (dedupFirst times)).length < 2 →
        resolveDay times = (none, none))
    ∧ (∀ uniq : List String, (sortedValid uniq).length < 2 →
        resolveDayPdf uniq = (none, none)) := by
  refine ⟨?_, ?_, ?_, ?_⟩
  · intro words rawText year m0 aw r hr
    simp only [parseDtrFromTesseractWords, List.mem_map] at hr
    rcases hr with ⟨p, ⟨e, he, hp⟩, hpr⟩
    subst hp
    subst hpr
    rcases mkDayRow_row aw year m0 e.1 e.2 with ⟨h1, h2⟩ | ⟨tin, mi, tout, mo, hrest⟩
    · exact Or.inr ⟨h1, h2⟩
    · exact Or.inl ⟨tin, mi, tout, mo, hrest⟩
  · intro text year m0 aw r hr
    simp only [parseDtrFromPdfText, List.mem_filterMap, List.mem_map, List.mem_range] at hr
    rcases hr with ⟨p, ⟨i, hi, hp⟩, hp2⟩
    subst hp
    rcases pdfDayResult_some hp2 with ⟨-, tin, mi, tout, mo, hrest⟩
    exact Or.inl ⟨tin, mi, tout, mo, hrest⟩
  · intro times hlen
    unfold resolveDay resolveCore
    rw [if_neg (by omega)]
  · intro uniq hlen
    unfold resolveDayPdf
    by_cases hg : 2 ≤ uniq.length
    · rw [if_pos hg]
      unfold resolveCore
      rw [if_neg (by omega)]
    · rw [if_neg hg]

/-- Witness for C5: a concrete extraction whose one row designates
7:00 AM in and 8:15 PM out. -/
theorem extractor_inout_invariant_witness :
    (∃ tin mi tout mo, c5Row.amIn = some tin ∧ c5Row.amOut = some tout
      ∧ timeToMinutesOfDay tin = some mi ∧ timeToMinutesOfDay tout = some mo
      ∧ mi ≤ mo)
    ∨ (c5Row.amIn = none ∧ c5Row.amOut = none) :=
  extractor_inout_invariant.1 c5Words "" 2025 0 none c5Row (by decide)

/-- Counterexample for claim C6 as stated: the two distinct display strings
`"12:30 AM"` and `"0:30 AM"` both resolve to 30 minutes-of-day; the code
selects the first-seen for `inTime` but the last-seen (not the first-seen)
for `outTime`, because the stable ascending sort keeps equal-key elements
in encounter order and `outTime` takes the final element. -/
theorem resolveDay_tie_cex :
    resolveDay ["12:30 AM", "0:30 AM"] = (some "12:30 AM", some "0:30 AM")
    ∧ timeToMinutesOfDay "12:30 AM" = some 30
    ∧ timeToMinutesOfDay "0:30 AM" = some 30
    ∧ "0:30 AM" ≠ "12:30 AM" :=
  ⟨by decide, by decide, by decide, by decide⟩

/-- Amended claim C6: with at least 2 valid readings in the deduplicated
list, `inTime` is the earliest and `outTime` the latest by minutes-of-day;
on ties, the first-seen (in deduplication order) wins for the `inTime`
choice, while the last-seen wins for the `outTime` choice. -/
theorem resolveDay_selection_amended (times : List String)
    (h2 : 2 ≤ (sortedValid (dedupFirst times)).length) :
    ∃ tin mi tout mo,
      resolveDay times = (some tin, some tout)
      ∧ timeToMinutesOfDay tin = some mi ∧ timeToMinutesOfDay tout = some mo
      ∧ (∃ l1 l2, validReadings (dedupFirst times) = l1 ++ (tin, mi) :: l2
          ∧ (∀ y ∈ l1, mi < y.2) ∧ (∀ y ∈ l2, mi ≤ y.2))
      ∧ (∃ l1 l2, validReadings (dedupFirst times) = l1 ++ (tout, mo) :: l2
          ∧ (∀ y ∈ l1, y.2 ≤ mo) ∧ (∀ y ∈ l2, y.2 < mo)) := by
  rcases resolveCore_sel h2 with ⟨tin, mi, tout, mo, hres, hfm, hlm⟩
  rcases firstMinBy_decomp hfm with ⟨l1, l2, hsplit, ha, hb⟩
  rcases lastMaxBy_decomp hlm with ⟨k1, k2, ksplit, hc, hd⟩
  have htin : timeToMinutesOfDay tin = some mi :=
    (mem_validReadings (x := (tin, mi)) (by
      rw [hsplit]
      exact List.mem_append_right _ (List.mem_cons_self _ _))).2
  have htout : timeToMinutesOfDay tout = some mo :=
    (mem_validReadings (x := (tout, mo)) (by
      rw [ksplit]
      exact List.mem_append_right _ (List.mem_cons_self _ _))).2
  exact ⟨tin, mi, tout, mo, hres, htin, htout,
    ⟨l1, l2, hsplit, ha, hb⟩, ⟨k1, k2, ksplit, hc, hd⟩⟩

/-- Witness for the amended C6 at the tieing pair. -/
theorem resolveDay_selection_amended_witness :
    ∃ tin mi tout mo,
      resolveDay ["12:30 AM", "0:30 AM"] = (some tin, some tout)
      ∧ timeToMinutesOfDay tin = some mi ∧ timeToMinutesOfDay tout = some mo
      ∧ (∃ l1 l2, validReadings (dedupFirst ["12:30 AM", "0:30 AM"])
            = l1 ++ (tin, mi) :: l2
          ∧ (∀ y ∈ l1, mi < y.2) ∧ (∀ y ∈ l2, mi ≤ y.2))
      ∧ (∃ l1 l2, validReadings (dedupFirst ["12:30 AM", "0:30 AM"])
            = l1 ++ (tout, mo) :: l2
          ∧ (∀ y ∈ l1, y.2 ≤ mo) ∧ (∀ y ∈ l2, y.2 < mo)) :=
  resolveDay_selection_amended ["12:30 AM", "0:30 AM"] (by decide)

/-- Claim C7: the row scan tries the compact form, then the split form
consuming the following meridiem fragment, then the spaced form, over the
x0-sorted fragments; in particular the day-14 row with fragments
`"10:52"`/`"PM"` alone designates nothing (a single reading), while adding
the compact fragment `"6:30AM"` yields 6:30 AM in and 10:52 PM out. -/
theorem collectTimes_split_token_cases :
    (parseDtrFromTesseractWords c7WordsA "" 2025 0 none).rows = [{ day := 14 }]
    ∧ (parseDtrFromTesseractWords c7WordsB "" 2025 0 none).rows
        = [{ day := 14, amIn := some "6:30 AM", amOut := some "10:52 PM" }] :=
  ⟨by decide, by decide⟩

/-- Claim C8: in the text-layout fallback, a day's times come only from the
first split chunk whose trimmed text begins with the day number and a
space — concretely, on `"DAY 9 07:58 AM 05:10 PM 10 08:01 AM 05:00 PM"`,
day 9 gets 7:58 AM / 5:10 PM and day 10's tokens do not bleed into day 9;
and in general a day with no matching chunk gets no row at all. -/
theorem pdfText_day_attribution :
    ((parseDtrFromPdfText c8Text 2025 0 []).rows
      = [{ day := 9, amIn := some "7:58 AM", amOut := some "5:10 PM" },
         { day := 10, amIn := some "8:01 AM", amOut := some "5:00 PM" }])
    ∧ (∀ (text : String) (year monthIndex0 : Int) (aw : List Int) (d : Nat),
        (pdfLines text).find? (chunkStartsWithDay d) = none →
        ∀ r ∈ (parseDtrFromPdfText text year monthIndex0 aw).rows, r.day ≠ d) := by
  refine ⟨by decide, ?_⟩
  intro text year m0 aw d hfind r hr
  simp only [parseDtrFromPdfText, List.mem_filterMap, List.mem_map, List.mem_range] at hr
  rcases hr with ⟨p, ⟨i, hi, hp⟩, hp2⟩
  subst hp
  have hday := (pdfDayResult_some hp2).1
  intro hcontra
  rw [hday] at hcontra
  subst hcontra
  rw [pdfDayResult_none hfind] at hp2
  cases hp2

/-- Witness for C8's general part: day 5 has no chunk in the concrete text,
so no extracted row carries day 5. -/
theorem pdfText_day_attribution_witness :
    ({ day := 9, amIn := some "7:58 AM", amOut := some "5:10 PM" } : DtrRow).day ≠ 5 :=
  pdfText_day_attribution.2 c8Text 2025 0 [] 5 (by decide)
    { day := 9, amIn := some "7:58 AM", amOut := some "5:10 PM" } (by decide)

/-! ### No-rows cases (claim C9) -/

theorem clusterStep_mem {P : Item → Prop} {racc : List (List Item)} {it : Item}
    (hacc : ∀ c ∈ racc, ∀ x ∈ c, P x) (hit : P it) :
    ∀ c ∈ clusterStep racc it, ∀ x ∈ c, P x := by
  intro c hc x hx
  rcases racc with _ | ⟨c0, cs⟩
  · simp only [clusterStep] at hc
    rcases List.mem_singleton.1 hc with rfl
    rcases List.mem_singleton.1 hx with rfl
    exact hit
  · rcases c0 with _ | ⟨lastIt, c0t⟩
    · simp only [clusterStep] at hc
      rcases List.mem_cons.1 hc with rfl | hcs
      · rcases List.mem_singleton.1 hx with rfl
        exact hit
      · exact hacc c (List.mem_cons_of_mem _ hcs) x hx
    · simp only [clusterStep] at hc
      split at hc
      · rcases List.mem_cons.1 hc with rfl | hcs
        · rcases List.mem_cons.1 hx with rfl | hx0
          · exact hit
          · exact hacc _ (List.mem_cons_self _ _) x hx0
        · exact hacc c (List.mem_cons_of_mem _ hcs) x hx
      · rcases List.mem_cons.1 hc with rfl | hcs
        · rcases List.mem_singleton.1 hx with rfl
          exact hit
        · exact hacc c hcs x hx

theorem foldl_clusterStep_mem {P : Item → Prop} :
    ∀ (l : List Item) (racc : List (List Item)),
      (∀ c ∈ racc, ∀ x ∈ c, P x) → (∀ it ∈ l, P it) →
      ∀ c ∈ l.foldl clusterStep racc, ∀ x ∈ c, P x := by
  intro l
  induction l with
  | nil =>
    intro racc hacc _ c hc
    exact hacc c hc
  | cons it l ih =>
    intro racc hacc hl
    rw [List.foldl_cons]
    exact ih (clusterStep racc it)
      (clusterStep_mem hacc (hl it (List.mem_cons_self _ _)))
      (fun a ha => hl a (List.mem_cons_of_mem _ ha))

theorem mem_clusterize {items : List Item} {c : List Item} {x : Item}
    (hc : c ∈ clusterize items) (hx : x ∈ c) : x ∈ items := by
  unfold clusterize at hc
  rw [List.mem_reverse] at hc
  rcases List.mem_map.1 hc with ⟨c2, hc2, rfl⟩
  exact foldl_clusterStep_mem (P := fun y => y ∈ items) items [] (by simp)
    (fun _ h => h) c2 hc2 x (List.mem_reverse.1 hx)

theorem foldl_dayScan_keep {dayColMaxX : Rat} :
    ∀ (clusters : List (List Item)) (acc : List (Nat × List String)),
      (∀ row ∈ clusters,
        row.find? (fun w => decide (w.x0 ≤ dayColMaxX) && isDayNumStr w.text) = none) →
      clusters.foldl (dayScan dayColMaxX) acc = acc := by
  intro clusters
  induction clusters with
  | nil =>
    intro acc _
    rfl
  | cons row rest ih =>
    intro acc h
    have hstep : dayScan dayColMaxX acc row = acc := by
      unfold dayScan
      rw [h row (List.mem_cons_self _ _)]
    rw [List.foldl_cons, hstep]
    exact ih acc fun r hr => h r (List.mem_cons_of_mem _ hr)

/-- Claim C9: inputs in which no rows are detectable — an empty or day-less
word list, a text stream with no day chunks, or plain OCR text — produce a
well-formed result with an empty `rows` list (and, being total functions,
the extractors cannot fail). -/
theorem no_rows_detected_empty :
    (∀ (rawText : String) (year monthIndex0 : Int) (aw : Option (List Int)),
        (parseDtrFromTesseractWords [] rawText year monthIndex0 aw).rows = [])
    ∧ (∀ (words : List WordBox) (rawText : String) (year monthIndex0 : Int)
        (aw : Option (List Int)),
        (∀ w ∈ words, isDayNumStr (jsTrim w.text) = false) →
        (parseDtrFromTesseractWords words rawText year monthIndex0 aw).rows = [])
    ∧ (∀ (text : String) (year monthIndex0 : Int) (aw : List Int),
        ((List.range 31).all fun i =>
          ((pdfLines text).find? (chunkStartsWithDay (i + 1))).isNone) = true →
        (parseDtrFromPdfText text year monthIndex0 aw).rows = [])
    ∧ (∀ rawText : String, (parseDtrFromOcr rawText).rows = []) := by
  refine ⟨fun _ _ _ _ => rfl, ?_, ?_, fun _ => rfl⟩
  · intro words rawText year m0 aw hnoday
    simp only [parseDtrFromTesseractWords]
    rw [foldl_dayScan_keep _ _ ?hrows]
    case hrows =>
      intro row hrow
      apply List.find?_eq_none.2
      intro w hw
      have hwitems := mem_clusterize hrow hw
      have hw2 := (List.perm_insertionSort
        (fun a b : Item => a.yMid ≤ b.yMid) _).mem_iff.1 hwitems
      rcases List.mem_map.1 hw2 with ⟨cw, hcw, rfl⟩
      rcases List.mem_filter.1 hcw with ⟨hcwmem, -⟩
      rcases List.mem_map.1 hcwmem with ⟨orig, horig, rfl⟩
      simp [hnoday orig horig]
    rfl
  · intro text year m0 aw hall
    simp only [parseDtrFromPdfText]
    apply List.filterMap_eq_nil_iff.2
    intro p hp
    rcases List.mem_map.1 hp with ⟨i, hi, rfl⟩
    apply pdfDayResult_none
    have := List.all_eq_true.1 hall i hi
    exact Option.isNone_iff_eq_none.1 this

/-- Witness for C9: a one-word list with no day-number text, and a text
with no day chunks. -/
theorem no_rows_detected_empty_witness :
    (parseDtrFromTesseractWords [⟨"HELLO", 1, 2, 3, 4⟩] "x" 2024 3 none).rows = []
    ∧ (parseDtrFromPdfText "plain words only" 2024 3 []).rows = [] :=
  ⟨no_rows_detected_empty.2.1 [⟨"HELLO", 1, 2, 3, 4⟩] "x" 2024 3 none (by decide),
   no_rows_detected_empty.2.2.1 "plain words only" 2024 3 [] (by decide)⟩

end Dtr
